import Mathlib

/- Shallow embedding of tm.ts (yawtm), a git worktree manager.
   JavaScript strings are modelled as lists of characters (Str); the JS string
   operations used by the source (trim, split, replace with a string pattern,
   startsWith, endsWith, includes) are modelled faithfully below.  External
   effects (the git process, the filesystem, the GitHub API, shell hooks) enter
   as explicit oracle parameters. -/

abbrev Str := List Char

/-- JavaScript startsWith: the first argument is the pattern. -/
def strStarts : Str → Str → Bool
  | [], _ => true
  | _ :: _, [] => false
  | p :: ps, c :: cs => p == c && strStarts ps cs

/-- Helper for the splitters: prepend a character to the first chunk. -/
def consHead (c : Char) : List Str → List Str
  | [] => [[c]]
  | h :: t => (c :: h) :: t

/-- JavaScript split on the two-character blank-line separator used for
porcelain blocks. -/
def splitNN : Str → List Str
  | [] => [[]]
  | [c] => [[c]]
  | c :: c2 :: rest =>
    if c = '\n' ∧ c2 = '\n' then [] :: splitNN rest
    else consHead c (splitNN (c2 :: rest))

/-- JavaScript split on a single-character separator. -/
def splitOnChar (sep : Char) : Str → List Str
  | [] => [[]]
  | c :: rest => if c = sep then [] :: splitOnChar sep rest else consHead c (splitOnChar sep rest)

/-- Whitespace characters stripped by JavaScript trim (the ones that can occur
in the modelled data). -/
def isWS (c : Char) : Bool := c == ' ' || c == '\t' || c == '\n' || c == '\r'

/-- JavaScript trim. -/
def trimStr (s : Str) : Str := ((s.dropWhile isWS).reverse.dropWhile isWS).reverse

/-- JavaScript replace with a string pattern: it replaces only the first
occurrence, scanning left to right. -/
def replaceFirstStr (pat rep : Str) : Str → Str
  | [] => if pat.isEmpty then rep else []
  | c :: cs =>
    if strStarts pat (c :: cs) then rep ++ (c :: cs).drop pat.length
    else c :: replaceFirstStr pat rep cs

/-- JavaScript includes: substring containment. -/
def containsSub (pat : Str) : Str → Bool
  | [] => strStarts pat []
  | c :: cs => strStarts pat (c :: cs) || containsSub pat cs

/-- JavaScript endsWith. -/
def endsWithStr (pat s : Str) : Bool := strStarts pat.reverse s.reverse

/- ------------------------------------------------------------------ -/
/- PorcelainParser: the worktree-list parsing logic of tm.ts.          -/
/- ------------------------------------------------------------------ -/

def worktreeKey : Str := "worktree ".toList

def branchKey : Str := "branch ".toList

def refsHeadsKey : Str := "refs/heads/".toList

def bareKey : Str := "bare".toList

def detachedSentinel : Str := "(detached)".toList

structure WorktreeInfo where
  path : Str
  branch : Str
  isBare : Bool
  existsDir : Bool
deriving DecidableEq

/-- One porcelain entry as parsed by listWorktrees (tm.ts lines 363-377).
The existsDir field records the directoryExists filesystem check, supplied as
the oracle dirExists. -/
def parseEntry (dirExists : Str → Bool) (entry : Str) : Option WorktreeInfo :=
  let lines := splitOnChar '\n' entry
  match lines.find? (fun l => strStarts worktreeKey l) with
  | none => none
  | some pathLine =>
    let path := replaceFirstStr worktreeKey [] pathLine
    let branch :=
      match lines.find? (fun l => strStarts branchKey l) with
      | some branchLine =>
        replaceFirstStr refsHeadsKey [] (replaceFirstStr branchKey [] branchLine)
      | none => detachedSentinel
    let isBare := (lines.find? (fun l => l == bareKey)).isSome
    some ⟨path, branch, isBare, dirExists path⟩

/-- The worktrees array built by listWorktrees (tm.ts lines 360-377): the raw
porcelain output is trimmed, split on blank lines, and entries without a
worktree line are skipped. -/
def parseWorktreesList (dirExists : Str → Bool) (worktreeOutput : Str) : List WorktreeInfo :=
  (splitNN (trimStr worktreeOutput)).filterMap (parseEntry dirExists)

/-- The records the listing loop actually prints (tm.ts line 386 skips every
record whose isBare flag is set). -/
def listedWorktrees (dirExists : Str → Bool) (worktreeOutput : Str) : List WorktreeInfo :=
  (parseWorktreesList dirExists worktreeOutput).filter (fun wt => !wt.isBare)

/-- One porcelain entry as parsed by pruneWorktrees (tm.ts lines 519-527) and
syncWorktrees (tm.ts lines 585-595): entries with a bare marker line or
without a worktree line yield nothing; a missing branch line yields the empty
branch name. -/
def parseNonBareEntry (entry : Str) : Option (Str × Str) :=
  let lines := splitOnChar '\n' entry
  match lines.find? (fun l => strStarts worktreeKey l) with
  | none => none
  | some pathLine =>
    if (lines.find? (fun l => l == bareKey)).isSome then none
    else
      let path := replaceFirstStr worktreeKey [] pathLine
      let branch :=
        match lines.find? (fun l => strStarts branchKey l) with
        | some branchLine =>
          replaceFirstStr refsHeadsKey [] (replaceFirstStr branchKey [] branchLine)
        | none => []
      some (path, branch)

/-- The non-bare worktree list built by pruneWorktrees and syncWorktrees from
the raw porcelain output. -/
def parseNonBareWorktrees (worktreeOutput : Str) : List (Str × Str) :=
  (splitNN (trimStr worktreeOutput)).filterMap parseNonBareEntry

/-- The orphan collection loop of pruneWorktrees (tm.ts lines 518-535): a
non-bare entry is collected exactly when its directory no longer exists. -/
def orphanedWorktrees (dirExists : Str → Bool) (worktreeOutput : Str) : List (Str × Str) :=
  (splitNN (trimStr worktreeOutput)).filterMap (fun entry =>
    match parseNonBareEntry entry with
    | none => none
    | some wt => if dirExists wt.1 then none else some wt)

/- ------------------------------------------------------------------ -/
/- sync (tm.ts syncWorktrees, lines 562-624).                          -/
/- ------------------------------------------------------------------ -/

inductive SyncOutcome
  | skipped
  | synced
  | failed (msg : Str)
deriving DecidableEq

/-- One iteration of the sync loop (tm.ts lines 600-617).  The status oracle
returns the number of files reported by the status query, or the error it
throws; the pull oracle returns the pull result.  The Bool component records
whether the pull was invoked at all. -/
def syncOne (statusRes : Except Str Nat) (pullRes : Except Str Unit) : SyncOutcome × Bool :=
  match statusRes with
  | Except.error e => (SyncOutcome.failed e, false)
  | Except.ok n =>
    if 0 < n then (SyncOutcome.skipped, false)
    else
      match pullRes with
      | Except.ok _ => (SyncOutcome.synced, true)
      | Except.error e => (SyncOutcome.failed e, true)

/-- The whole sync pass over the parsed worktrees: one reported outcome per
non-bare worktree, keyed by branch name, in input order. -/
def syncRun (status : Str → Except Str Nat) (pull : Str → Except Str Unit)
    (worktreeOutput : Str) : List (Str × SyncOutcome × Bool) :=
  (parseNonBareWorktrees worktreeOutput).map
    (fun wt => (wt.2, syncOne (status wt.1) (pull wt.1)))

/- ------------------------------------------------------------------ -/
/- remove (tm.ts remove, lines 272-318).                               -/
/- ------------------------------------------------------------------ -/

structure RemoveOutcome where
  worktreeRemoved : Bool
  removedMsgLogged : Bool
  branchDeleteAttempted : Bool
  branchDeleted : Bool
  errorLogged : Option Str
  exitCode : Nat
deriving DecidableEq

def removeFailMsg (e : Str) : Str := "Remove failed: ".toList ++ e

/-- The try block of remove (tm.ts lines 300-318): worktree removal, success
log, then the optional branch deletion as a second step; any thrown error is
logged and the process exits with code 1.  Nothing ever re-adds the worktree,
so worktreeRemoved stays true once the removal call succeeded. -/
def removeCore (deleteBranch : Bool) (wtRes brRes : Except Str Unit) : RemoveOutcome :=
  match wtRes with
  | Except.error e => ⟨false, false, false, false, some (removeFailMsg e), 1⟩
  | Except.ok _ =>
    if deleteBranch then
      match brRes with
      | Except.ok _ => ⟨true, true, true, true, none, 0⟩
      | Except.error e => ⟨true, true, true, false, some (removeFailMsg e), 1⟩
    else ⟨true, true, false, false, none, 0⟩

/- ------------------------------------------------------------------ -/
/- prune (tm.ts pruneWorktrees, lines 500-560).                        -/
/- ------------------------------------------------------------------ -/

inductive PruneEvent
  | pruned (branch : Str)
  | failed (branch : Str) (msg : Str)
deriving DecidableEq

structure PruneRun where
  zeroMsg : Bool
  foundCount : Nat
  events : List PruneEvent
deriving DecidableEq

/-- The prune pass (tm.ts lines 537-555): with no orphans it prints the
distinct zero message and returns without any removal; otherwise it reports the
count and attempts the removal of every orphan in order, logging per-entry
failures and continuing. -/
def pruneRun (dirExists : Str → Bool) (removeRes : Str → Except Str Unit)
    (worktreeOutput : Str) : PruneRun :=
  let orphaned := orphanedWorktrees dirExists worktreeOutput
  if orphaned.isEmpty then ⟨true, 0, []⟩
  else
    ⟨false, orphaned.length,
      orphaned.map (fun wt =>
        match removeRes wt.1 with
        | Except.ok _ => PruneEvent.pruned wt.2
        | Except.error e => PruneEvent.failed wt.2 e)⟩

/- ------------------------------------------------------------------ -/
/- post-hooks (tm.ts runPostHooks, lines 16-43).                       -/
/- ------------------------------------------------------------------ -/

/-- The hook loop (tm.ts lines 24-37): hooks run in list order; the exitCode
oracle gives the exit status of the i-th spawned hook; the loop stops at the
first non-zero exit, which is thrown (returned here as the Option component)
after that hook has run. -/
def runHookLoop (exitCode : Nat → Int) : Nat → List Str → List Str × Option Int
  | _, [] => ([], none)
  | i, h :: t =>
    if exitCode i ≠ 0 then ([h], some (exitCode i))
    else
      let r := runHookLoop exitCode (i + 1) t
      (h :: r.1, r.2)

/-- Index of the first hook whose exit code is non-zero, counting from the
given start index. -/
def firstFailIdx (exitCode : Nat → Int) : Nat → List Str → Option Nat
  | _, [] => none
  | i, _ :: t => if exitCode i ≠ 0 then some i else firstFailIdx exitCode (i + 1) t

structure HookRun where
  executed : List Str
  errorLogged : Option Str
deriving DecidableEq

def postHookErrMsg (e : Str) : Str := "Error running post-hooks: ".toList ++ e

def hookFailMsg (c : Int) : Str :=
  "Post-hook failed with exit code ".toList ++ (toString c).toList

/-- runPostHooks (tm.ts lines 16-43): nothing happens when the hook file is
absent; a JSON parse failure or a thrown hook failure is caught by the inner
try and only logged; the function itself never propagates an error, which is
why its result type has no failure component. -/
def runPostHooks (fileExists : Bool) (jsonResult : Except Str (Option (List Str)))
    (exitCode : Nat → Int) : HookRun :=
  if fileExists then
    match jsonResult with
    | Except.error e => ⟨[], some (postHookErrMsg e)⟩
    | Except.ok none => ⟨[], none⟩
    | Except.ok (some hooks) =>
      let r := runHookLoop exitCode 0 hooks
      match r.2 with
      | none => ⟨r.1, none⟩
      | some c => ⟨r.1, some (postHookErrMsg (hookFailMsg c))⟩
  else ⟨[], none⟩

/-- A command that runs its pre-hook work and then the post-hooks, as clone,
branch and add do (tm.ts lines 207, 265, 493): the exit code is decided before
the hooks run and hook failures cannot change it. -/
def commandWithHooks (pre : Except Str Unit) (fileExists : Bool)
    (jsonResult : Except Str (Option (List Str))) (exitCode : Nat → Int) : Nat × HookRun :=
  match pre with
  | Except.error _ => (1, ⟨[], none⟩)
  | Except.ok _ => (0, runPostHooks fileExists jsonResult exitCode)

/- ------------------------------------------------------------------ -/
/- BranchResolver (tm.ts getMainBranch lines 87-126, clone 179-191).   -/
/- ------------------------------------------------------------------ -/

def symrefOriginKey : Str := "refs/remotes/origin/".toList

def originKey : Str := "origin/".toList

def headSub : Str := "HEAD".toList

def commonDefaults : List Str := ["main".toList, "master".toList, "develop".toList, "dev".toList]

def mainBranchErr : Str := "Could not determine main branch".toList

/-- The remoteBranches list of getMainBranch (tm.ts lines 103-106): the keys
reported by the remote branch listing, stripped of the first origin/ prefix,
trimmed, and filtered to drop empty names and names containing HEAD. -/
def remoteBranchesOf (remoteKeys : List Str) : List Str :=
  (remoteKeys.map (fun b => trimStr (replaceFirstStr originKey [] b))).filter
    (fun b => !b.isEmpty && !containsSub headSub b)

/-- The preference-list scan of getMainBranch (tm.ts lines 113-118). -/
def firstDefaultHit (remoteBranches : List Str) : Option Str :=
  commonDefaults.find? (fun d => remoteBranches.contains d)

/-- The second try block of getMainBranch (tm.ts lines 101-125): empty filtered
list throws, which the catch converts into the single hard error; otherwise the
preference list is scanned and the first reported branch is the last resort. -/
def getMainBranchFallback (remoteKeys : List Str) : Except Str Str :=
  match remoteBranchesOf remoteKeys with
  | [] => Except.error mainBranchErr
  | b :: rest =>
    match firstDefaultHit (b :: rest) with
    | some d => Except.ok d
    | none => Except.ok b

/-- getMainBranch (tm.ts lines 87-126).  The symref oracle is the result of the
symbolic-ref call: none when it throws, some of its output otherwise. -/
def getMainBranch (symref : Option Str) (remoteKeys : List Str) : Except Str Str :=
  match symref with
  | some result =>
    if !result.isEmpty then
      let branch := trimStr (replaceFirstStr symrefOriginKey [] result)
      if !branch.isEmpty then Except.ok branch else getMainBranchFallback remoteKeys
    else getMainBranchFallback remoteKeys
  | none => getMainBranchFallback remoteKeys

/-- The branch name the symbolic-ref path of getMainBranch yields, when it
yields one. -/
def symrefBranch (symref : Option Str) : Option Str :=
  match symref with
  | some result =>
    if !result.isEmpty then
      let branch := trimStr (replaceFirstStr symrefOriginKey [] result)
      if !branch.isEmpty then some branch else none
    else none
  | none => none

/-- The default-branch resolution step of clone (tm.ts lines 179-191): the
githubDefault oracle is the default branch reported by the external lookup
(none when the input was not shorthand or the lookup failed; an empty string is
turned into null by the source before the truthiness test). -/
def resolveMainBranch (githubDefault symref : Option Str) (remoteKeys : List Str) :
    Except Str Str :=
  match githubDefault with
  | some d => if !d.isEmpty then Except.ok d else getMainBranch symref remoteKeys
  | none => getMainBranch symref remoteKeys

/- ------------------------------------------------------------------ -/
/- RepoLocator (tm.ts getBarePath, lines 327-342).                     -/
/- ------------------------------------------------------------------ -/

def bareSeg : Str := ".bare".toList

/-- getBarePath (tm.ts lines 327-342) over a segment-list path model: node
join(p, x) appends a segment and join(p, "..") drops the last one; the
dirExists oracle is the directoryExists filesystem check.  A none result makes
every caller fail with the not-managed-repository error. -/
def getBarePath (dirExists : List Str → Bool) (cwd : List Str) : Option (List Str) :=
  if dirExists (cwd ++ [bareSeg]) then some (cwd ++ [bareSeg])
  else if dirExists (cwd.dropLast ++ [bareSeg]) then some (cwd.dropLast ++ [bareSeg])
  else none

/- ------------------------------------------------------------------ -/
/- Repository-root computation (tm.ts lines 243, 292, 379, 455, 634).  -/
/- ------------------------------------------------------------------ -/

def dotBare : Str := "/.bare".toList

/-- The actualRepoPath computation shared by branch, remove, listWorktrees,
addWorktree and switchWorktree: the JavaScript replace with a string pattern
deletes only the first occurrence of the /.bare substring from the bare-store
path. -/
def actualRepoPathOf (barePath : Str) : Str := replaceFirstStr dotBare [] barePath

/- ------------------------------------------------------------------ -/
/- clone URL handling (tm.ts resolveRepoUrl 45-71, clone 128-169).     -/
/- ------------------------------------------------------------------ -/

def invalidFormatMsg : Str := "Invalid repository format. Use \"user/repo\" or full URL".toList

def apiErrMsg (owner repo : Str) : Str :=
  "Repository \"".toList ++ owner ++ '/' :: repo ++ "\" not found or is not accessible".toList

/-- The shorthand regex of resolveRepoUrl (tm.ts line 52): exactly one slash
with non-empty sides. -/
def parseOwnerRepo (s : Str) : Option (Str × Str) :=
  match splitOnChar '/' s with
  | [a, b] => if !a.isEmpty && !b.isEmpty then some (a, b) else none
  | _ => none

/-- resolveRepoUrl (tm.ts lines 45-71).  The api oracle models the GitHub
lookup: some of the clone URL on success, none when the call throws. -/
def resolveRepoUrl (api : Str → Str → Option Str) (repoInput : Str) : Except Str Str :=
  if strStarts ("https://".toList) repoInput || strStarts ("git@".toList) repoInput
      || endsWithStr (".git".toList) repoInput then
    Except.ok repoInput
  else
    match parseOwnerRepo repoInput with
    | none => Except.error invalidFormatMsg
    | some (owner, repo) =>
      match api owner repo with
      | some url => Except.ok url
      | none => Except.error (apiErrMsg owner repo)

/-- The URL-shape regex of clone (tm.ts line 133): the url must end in a slash,
a non-empty slash-free segment, and the literal .git suffix; the captured
segment is the repository name. -/
def matchRepoName (url : Str) : Option Str :=
  if endsWithStr (".git".toList) url then
    let stem := url.take (url.length - 4)
    let parts := splitOnChar '/' stem
    if parts.length < 2 then none
    else
      match parts.getLast? with
      | some seg => if seg.isEmpty then none else some seg
      | none => none
  else none

inductive CloneErr
  | resolveFailed (msg : Str)
  | invalidUrl
  | targetExists (repoName : Str)
deriving DecidableEq

structure CloneOutcome where
  err : Option CloneErr
  createdDirs : List Str
  repoName : Option Str
deriving DecidableEq

/-- The prefix of clone up to and including the directory creation (tm.ts
lines 128-169): URL resolution, the URL-shape check (which exits before any
filesystem access), the target-exists check and the mkdir of the bare path.
The createdDirs field lists every directory creation performed. -/
def cloneStart (api : Str → Str → Option Str) (dirExists : Str → Bool)
    (cwd repoInput : Str) : CloneOutcome :=
  match resolveRepoUrl api repoInput with
  | Except.error m => ⟨some (CloneErr.resolveFailed m), [], none⟩
  | Except.ok repoUrl =>
    match matchRepoName repoUrl with
    | none => ⟨some CloneErr.invalidUrl, [], none⟩
    | some repoName =>
      let repoPath := cwd ++ '/' :: repoName
      let barePath := repoPath ++ dotBare
      if dirExists repoPath then ⟨some (CloneErr.targetExists repoName), [], none⟩
      else ⟨none, [barePath], some repoName⟩

/- ------------------------------------------------------------------ -/
/- Synthesized porcelain input, for the round-trip statement of C1.    -/
/- ------------------------------------------------------------------ -/

structure PorcelainEntry where
  path? : Option Str
  branch? : Option Str
  bare : Bool
deriving DecidableEq

/-- The lines of a synthesized porcelain entry: an optional worktree line, an
optional branch line, an optional standalone bare marker. -/
def entryLines (e : PorcelainEntry) : List Str :=
  (match e.path? with
   | some p => [worktreeKey ++ p]
   | none => []) ++
  (match e.branch? with
   | some b => [branchKey ++ refsHeadsKey ++ b]
   | none => []) ++
  (if e.bare then [bareKey] else [])

def joinLines : List Str → Str
  | [] => []
  | [l] => l
  | l :: l2 :: ls => l ++ '\n' :: joinLines (l2 :: ls)

def joinBlocks : List Str → Str
  | [] => []
  | [b] => b
  | b :: b2 :: bs => b ++ '\n' :: '\n' :: joinBlocks (b2 :: bs)

def renderEntry (e : PorcelainEntry) : Str := joinLines (entryLines e)

def renderPorcelain (es : List PorcelainEntry) : Str := joinBlocks (es.map renderEntry)

/-- Strings containing no whitespace character at all: paths and branch names
of this hygiene round-trip cleanly through trim and the line splitters. -/
def goodStr (s : Str) : Bool := s.all (fun c => !isWS c)

/-- Absence of the newline character. -/
def noNL (l : Str) : Bool := l.all (fun c => !(c == '\n'))

/-- Wellformedness of a synthesized entry: a non-empty whitespace-free path
when present, a whitespace-free branch name when present, and at least one
line. -/
def entryWF (e : PorcelainEntry) : Bool :=
  (match e.path? with
   | some p => !p.isEmpty && goodStr p
   | none => true) &&
  (match e.branch? with
   | some b => goodStr b
   | none => true) &&
  (e.path?.isSome || e.branch?.isSome || e.bare)

/-- The record the parser is specified to produce for a synthesized entry:
none without a worktree line, otherwise the path, the branch name or the
detached sentinel, the bare flag, and the existence bit of the oracle. -/
def expectedRecord (dirExists : Str → Bool) (e : PorcelainEntry) : Option WorktreeInfo :=
  match e.path? with
  | none => none
  | some p =>
    some ⟨p,
      (match e.branch? with
       | some b => b
       | none => detachedSentinel),
      e.bare, dirExists p⟩

/-- Chunks that survive the blank-line splitter intact: no two consecutive
newlines inside and no trailing newline. -/
def chunkOK : Str → Bool
  | [] => true
  | [c] => !(c == '\n')
  | c :: c2 :: rest => if c = '\n' ∧ c2 = '\n' then false else chunkOK (c2 :: rest)

/- ------------------------------------------------------------------ -/
/- First easy theorems, to be grown below.                             -/
/- ------------------------------------------------------------------ -/

/-- C7 counterexample: the claim says the parser fails with ParseError when the
overall input is empty, but the code has no failure path at all: on the empty
porcelain output both the listWorktrees parse and the listing it performs
return successfully with zero records instead of failing. -/
theorem parse_empty_no_error :
    parseWorktreesList (fun _ => false) [] = [] ∧
    listedWorktrees (fun _ => false) [] = [] := by
  constructor <;> rfl

/-- C3 counterexample: a worktree whose status query itself fails is not in the
dirty class (its status reports no modified file), yet the code reports the
outcome failed without ever attempting the pull (the Bool component is false),
contradicting the claim that for every non-dirty worktree the update is
attempted. -/
theorem sync_status_error_cex :
    syncRun (fun _ => Except.error ("status failed".toList)) (fun _ => Except.ok ())
        ("worktree /a\nbranch refs/heads/dev".toList)
      = [("dev".toList, (SyncOutcome.failed ("status failed".toList), false))] := by
  decide

/-- C4: with the deleteBranch flag set, when the worktree removal succeeds and
the subsequent branch deletion fails, the worktree stays removed (nothing ever
rolls back the removal), the removal success was already logged before the
deletion was attempted, and the deletion failure is reported separately. -/
theorem remove_independence (e : Str) :
    removeCore true (Except.ok ()) (Except.error e)
      = ⟨true, true, true, false, some (removeFailMsg e), 1⟩ := rfl

/-- Witness for remove_independence at a concrete failure message. -/
theorem remove_independence_witness :
    removeCore true (Except.ok ()) (Except.error ("branch is checked out".toList))
      = ⟨true, true, true, false,
          some (removeFailMsg ("branch is checked out".toList)), 1⟩ :=
  remove_independence ("branch is checked out".toList)

/-- A failing hook index is never below the start index of the scan. -/
theorem firstFailIdx_ge (exitCode : Nat → Int) :
    ∀ (l : List Str) (s i : Nat), firstFailIdx exitCode s l = some i → s ≤ i := by
  intro l
  induction l with
  | nil =>
    intro s i h
    simp [firstFailIdx] at h
  | cons x xs ih =>
    intro s i h
    by_cases hx : exitCode s ≠ 0
    · have hsi : s = i := by simpa [firstFailIdx, hx] using h
      omega
    · have := ih (s + 1) i (by simpa [firstFailIdx, hx] using h)
      omega

/-- The hook loop runs hooks in list order and halts exactly at the first
non-zero exit code, which it reports. -/
theorem runHookLoop_spec (exitCode : Nat → Int) :
    ∀ (hooks : List Str) (start : Nat),
      (firstFailIdx exitCode start hooks = none →
        runHookLoop exitCode start hooks = (hooks, none)) ∧
      (∀ i, firstFailIdx exitCode start hooks = some i →
        runHookLoop exitCode start hooks = (hooks.take (i + 1 - start), some (exitCode i))) := by
  intro hooks
  induction hooks with
  | nil =>
    intro start
    exact ⟨fun _ => rfl, fun i h => by simp [firstFailIdx] at h⟩
  | cons hd t ih =>
    intro start
    constructor
    · intro hnone
      by_cases hc : exitCode start ≠ 0
      · simp [firstFailIdx, hc] at hnone
      · have htail : firstFailIdx exitCode (start + 1) t = none := by
          simpa [firstFailIdx, hc] using hnone
        have := (ih (start + 1)).1 htail
        simp [runHookLoop, hc, this]
    · intro i h
      by_cases hc : exitCode start ≠ 0
      · have hi : start = i := by simpa [firstFailIdx, hc] using h
        subst hi
        have h1 : start + 1 - start = 1 := by omega
        simp [runHookLoop, hc, h1]
      · have htail : firstFailIdx exitCode (start + 1) t = some i := by
          simpa [firstFailIdx, hc] using h
        have hge : start + 1 ≤ i := firstFailIdx_ge exitCode t (start + 1) i htail
        have hrec := (ih (start + 1)).2 i htail
        have harith : i + 1 - start = (i + 1 - (start + 1)) + 1 := by omega
        simp [runHookLoop, hc, hrec, harith, List.take_succ_cons]

/-- C8: post-hooks execute in list order; execution halts at the first hook
with a non-zero exit, whose failure is logged by the inner catch; and the exit
status of the invoking command is decided before the hooks run, so a hook
failure never changes it. -/
theorem posthooks_order_halt_advisory (hooks : List Str) (exitCode : Nat → Int) :
    (firstFailIdx exitCode 0 hooks = none →
      runPostHooks true (Except.ok (some hooks)) exitCode = ⟨hooks, none⟩) ∧
    (∀ i, firstFailIdx exitCode 0 hooks = some i →
      runPostHooks true (Except.ok (some hooks)) exitCode
        = ⟨hooks.take (i + 1), some (postHookErrMsg (hookFailMsg (exitCode i)))⟩) ∧
    (commandWithHooks (Except.ok ()) true (Except.ok (some hooks)) exitCode).1 = 0 := by
  refine ⟨?_, ?_, rfl⟩
  · intro hnone
    have := (runHookLoop_spec exitCode hooks 0).1 hnone
    simp [runPostHooks, this]
  · intro i h
    have := (runHookLoop_spec exitCode hooks 0).2 i h
    simp [runPostHooks, this]

def hooksW : List Str := ["echo a".toList, "bad cmd".toList, "echo c".toList]

def exitW : Nat → Int := fun i => if i == 1 then 1 else 0

/-- Witness for posthooks_order_halt_advisory: the second of three hooks fails,
the third never runs, the failure is logged, the command still exits 0. -/
theorem posthooks_order_halt_advisory_witness :
    firstFailIdx exitW 0 hooksW = some 1 ∧
    runPostHooks true (Except.ok (some hooksW)) exitW
      = ⟨hooksW.take 2, some (postHookErrMsg (hookFailMsg (exitW 1)))⟩ ∧
    (commandWithHooks (Except.ok ()) true (Except.ok (some hooksW)) exitW).1 = 0 := by
  refine ⟨by decide, ?_, (posthooks_order_halt_advisory hooksW exitW).2.2⟩
  exact (posthooks_order_halt_advisory hooksW exitW).2.1 1 (by decide)

/-- The inline orphan filter of pruneWorktrees agrees with filtering the parsed
non-bare worktrees by non-existence. -/
theorem orphaned_eq_filter (d : Str → Bool) (out : Str) :
    orphanedWorktrees d out = (parseNonBareWorktrees out).filter (fun wt => !(d wt.1)) := by
  unfold orphanedWorktrees parseNonBareWorktrees
  generalize splitNN (trimStr out) = l
  induction l with
  | nil => rfl
  | cons e l ih =>
    cases hpe : parseNonBareEntry e with
    | none => simp [List.filterMap_cons, hpe, ih]
    | some wt =>
      by_cases hd : d wt.1
      · simp [List.filterMap_cons, hpe, hd, ih]
      · simp [List.filterMap_cons, hpe, hd, ih]

/-- C5: prune collects exactly the non-bare records whose path no longer
exists; with zero orphans it reports the distinct zero message and performs no
removal; otherwise it reports the count and attempts the removal of every
orphan in order, recording per-entry success or failure without any entry
stopping the processing of the rest. -/
theorem prune_isolation (d : Str → Bool) (r : Str → Except Str Unit) (out : Str) :
    orphanedWorktrees d out
      = (parseNonBareWorktrees out).filter (fun wt => !(d wt.1)) ∧
    (orphanedWorktrees d out = [] → pruneRun d r out = ⟨true, 0, []⟩) ∧
    (orphanedWorktrees d out ≠ [] →
      pruneRun d r out
        = ⟨false, (orphanedWorktrees d out).length,
            (orphanedWorktrees d out).map (fun wt =>
              match r wt.1 with
              | Except.ok _ => PruneEvent.pruned wt.2
              | Except.error e => PruneEvent.failed wt.2 e)⟩) := by
  refine ⟨orphaned_eq_filter d out, ?_, ?_⟩
  · intro h
    simp [pruneRun, h]
  · intro h
    cases horph : orphanedWorktrees d out with
    | nil => exact absurd horph h
    | cons a l => simp [pruneRun, horph]

def pruneOut : Str :=
  "worktree /gone\nbranch refs/heads/x\n\nworktree /here\n\nworktree /b\nbare".toList

def pruneD : Str → Bool := fun p => !(p == "/gone".toList)

def pruneR : Str → Except Str Unit :=
  fun p => if p == "/gone".toList then Except.error ("locked".toList) else Except.ok ()

/-- Witness for prune_isolation: one orphan out of two non-bare entries plus a
bare entry; its removal fails, which is recorded and nothing else happens. -/
theorem prune_isolation_witness :
    orphanedWorktrees pruneD pruneOut ≠ [] ∧
    pruneRun pruneD pruneR pruneOut
      = ⟨false, 1, [PruneEvent.failed ("x".toList) ("locked".toList)]⟩ := by
  have h := (prune_isolation pruneD pruneR pruneOut).2.2
  refine ⟨by decide, ?_⟩
  rw [h (by decide)]
  decide

/-- C6: the locator returns the bare store of the current directory when it
exists, else that of the immediate parent, else nothing (the callers then fail
with the not-managed-repository error); and it never searches more than one
level up, so a bare store existing only at depth two or more is never found. -/
theorem locator_one_level (dirExists : List Str → Bool) (cwd : List Str) :
    (dirExists (cwd ++ [bareSeg]) = true →
      getBarePath dirExists cwd = some (cwd ++ [bareSeg])) ∧
    (dirExists (cwd ++ [bareSeg]) = false → dirExists (cwd.dropLast ++ [bareSeg]) = true →
      getBarePath dirExists cwd = some (cwd.dropLast ++ [bareSeg])) ∧
    (dirExists (cwd ++ [bareSeg]) = false → dirExists (cwd.dropLast ++ [bareSeg]) = false →
      getBarePath dirExists cwd = none) ∧
    (∀ k, 2 ≤ k → k ≤ cwd.length →
      getBarePath (fun q => q == cwd.take (cwd.length - k) ++ [bareSeg]) cwd = none) := by
  refine ⟨?_, ?_, ?_, ?_⟩
  · intro h; simp [getBarePath, h]
  · intro h1 h2; simp [getBarePath, h1, h2]
  · intro h1 h2; simp [getBarePath, h1, h2]
  · intro k hk2 hklen
    have hlen : (cwd.take (cwd.length - k)).length = cwd.length - k := by
      rw [List.length_take]
      omega
    have h1 : ((cwd ++ [bareSeg]) == cwd.take (cwd.length - k) ++ [bareSeg]) = false := by
      rw [beq_eq_false_iff_ne]
      intro hEq
      have hl := congrArg List.length hEq
      simp [List.length_append, hlen] at hl
      omega
    have h2 : ((cwd.dropLast ++ [bareSeg]) == cwd.take (cwd.length - k) ++ [bareSeg]) = false := by
      rw [beq_eq_false_iff_ne]
      intro hEq
      have hl := congrArg List.length hEq
      simp [List.length_append, List.length_dropLast, hlen] at hl
      omega
    simp [getBarePath, h1, h2]

def locFs : List Str → Bool := fun q => q == [("h".toList : Str), bareSeg]

def locCwd : List Str := ["h".toList, "u".toList]

/-- Witness for locator_one_level: the bare store sits in the parent of the
working directory and is found there; a bare store only two levels up is not
found. -/
theorem locator_one_level_witness :
    getBarePath locFs locCwd = some (locCwd.dropLast ++ [bareSeg]) ∧
    getBarePath (fun q => q == locCwd.take (locCwd.length - 2) ++ [bareSeg]) locCwd = none := by
  refine ⟨(locator_one_level locFs locCwd).2.1 (by decide) (by decide), ?_⟩
  exact (locator_one_level locFs locCwd).2.2.2 2 (by decide) (by decide)

/-- The symbolic-ref arm of getMainBranch factors through symrefBranch. -/
theorem getMainBranch_symref (symref : Option Str) (keys : List Str) :
    getMainBranch symref keys
      = match symrefBranch symref with
        | some b => Except.ok b
        | none => getMainBranchFallback keys := by
  cases symref with
  | none => rfl
  | some result =>
    by_cases h1 : result.isEmpty
    · simp [getMainBranch, symrefBranch, h1]
    · by_cases h2 : (trimStr (replaceFirstStr symrefOriginKey [] result)).isEmpty
      · simp [getMainBranch, symrefBranch, h1, h2]
      · simp [getMainBranch, symrefBranch, h1, h2]

/-- C2 amended: default-branch resolution follows the claimed precedence, but
the failure condition is the emptiness of the filtered remote-branch list (the
code drops names that contain HEAD or are empty after stripping the origin/
prefix), not the emptiness of the reported remote branches themselves. -/
theorem branch_precedence_amended (gh symref : Option Str) (keys : List Str) :
    (∀ d, gh = some d → d.isEmpty = false →
      resolveMainBranch gh symref keys = Except.ok d) ∧
    ((gh = none ∨ gh = some []) →
      (∀ b, symrefBranch symref = some b →
        resolveMainBranch gh symref keys = Except.ok b) ∧
      (symrefBranch symref = none →
        ((resolveMainBranch gh symref keys = Except.error mainBranchErr) ↔
          remoteBranchesOf keys = []) ∧
        (∀ d, firstDefaultHit (remoteBranchesOf keys) = some d →
          resolveMainBranch gh symref keys = Except.ok d) ∧
        (firstDefaultHit (remoteBranchesOf keys) = none →
          ∀ b rest, remoteBranchesOf keys = b :: rest →
            resolveMainBranch gh symref keys = Except.ok b))) := by
  constructor
  · intro d hd he
    subst hd
    simp [resolveMainBranch, he]
  · intro hgh
    have hmain : resolveMainBranch gh symref keys = getMainBranch symref keys := by
      rcases hgh with h | h <;> subst h <;> simp [resolveMainBranch]
    rw [hmain, getMainBranch_symref]
    constructor
    · intro b hb
      simp [hb]
    · intro hnone
      rw [hnone]
      unfold getMainBranchFallback
      cases hrem : remoteBranchesOf keys with
      | nil =>
        refine ⟨by simp, ?_, ?_⟩
        · intro d hd
          have hfd0 : firstDefaultHit ([] : List Str) = none := rfl
          rw [hfd0] at hd
          exact Option.noConfusion hd
        · intro _ b rest habs
          exact absurd habs (by simp)
      | cons b rest =>
        refine ⟨?_, ?_, ?_⟩
        · constructor
          · intro habs
            cases hfd : firstDefaultHit (b :: rest) <;> simp [hfd] at habs
          · intro habs
            exact absurd habs (by simp)
        · intro d hd
          simp [hd]
        · intro hfd b' rest' heq
          obtain ⟨hb, hrest⟩ := List.cons.inj heq
          subst hb
          simp [hfd]

/-- C2 counterexample: a remote reporting exactly one branch, release-HEAD,
has a non-zero number of branches, yet resolution fails because the fallback
filter drops every name containing the HEAD substring; this falsifies the
claim that failure happens if and only if the remote has zero branches. -/
theorem branch_zero_iff_cex :
    ([("origin/release-HEAD".toList : Str)].length = 1) ∧
    resolveMainBranch none none [("origin/release-HEAD".toList : Str)]
      = Except.error mainBranchErr := ⟨rfl, rfl⟩

def keysA : List Str := ["origin/release".toList, "origin/main".toList]

def keysB : List Str := ["origin/release".toList, "origin/feature-x".toList]

/-- Witness for branch_precedence_amended, matching the spec examples: a
supplied develop wins over everything; from release and main the preference
list picks main; from release and feature-x the first reported branch wins. -/
theorem branch_precedence_amended_witness :
    resolveMainBranch (some ("develop".toList)) none keysA = Except.ok ("develop".toList) ∧
    resolveMainBranch none none keysA = Except.ok ("main".toList) ∧
    resolveMainBranch none none keysB = Except.ok ("release".toList) := by
  refine ⟨(branch_precedence_amended (some ("develop".toList)) none keysA).1
    ("develop".toList) rfl (by decide), ?_, ?_⟩
  · have h := ((branch_precedence_amended none none keysA).2 (Or.inl rfl)).2 rfl
    exact h.2.1 ("main".toList) (by decide)
  · have h := ((branch_precedence_amended none none keysB).2 (Or.inl rfl)).2 rfl
    exact h.2.2 (by decide) ("release".toList) [("feature-x".toList : Str)] (by decide)

/-- C10: clone rejects with the invalid-URL error, before any directory is
created, every resolved URL lacking a trailing slash-name-dot-git shape; any
input already ending in .git is returned as-is by resolveRepoUrl for every
possible API oracle, bypassing shorthand resolution entirely; and the early
clone phase succeeds only when the resolved URL matches that shape. -/
theorem clone_url_validation (api : Str → Str → Option Str) (d : Str → Bool)
    (cwd repoInput : Str) :
    (∀ url, resolveRepoUrl api repoInput = Except.ok url → matchRepoName url = none →
      cloneStart api d cwd repoInput = ⟨some CloneErr.invalidUrl, [], none⟩) ∧
    (endsWithStr (".git".toList) repoInput = true →
      ∀ api2 : Str → Str → Option Str, resolveRepoUrl api2 repoInput = Except.ok repoInput) ∧
    ((cloneStart api d cwd repoInput).err = none →
      ∃ url n, resolveRepoUrl api repoInput = Except.ok url ∧ matchRepoName url = some n) := by
  refine ⟨?_, ?_, ?_⟩
  · intro url hres hmatch
    simp [cloneStart, hres, hmatch]
  · intro hend api2
    unfold resolveRepoUrl
    rw [hend]
    simp
  · intro herr
    cases hres : resolveRepoUrl api repoInput with
    | error m => simp [cloneStart, hres] at herr
    | ok url =>
      cases hmatch : matchRepoName url with
      | none => simp [cloneStart, hres, hmatch] at herr
      | some n => exact ⟨url, n, rfl, hmatch⟩

def cloneInput : Str := "https://github.com/user/repo".toList

/-- Witness for clone_url_validation at the claim's example input: the URL is
returned as-is, fails the shape check, and clone reports the invalid-URL error
with no directory created. -/
theorem clone_url_validation_witness :
    cloneStart (fun _ _ => none) (fun _ => false) ("/w".toList) cloneInput
      = ⟨some CloneErr.invalidUrl, [], none⟩ :=
  (clone_url_validation (fun _ _ => none) (fun _ => false) ("/w".toList) cloneInput).1
    cloneInput rfl rfl

/-- C3 amended: sync processes every non-bare worktree and reports one outcome
per worktree in input order; a worktree whose status query succeeds with at
least one reported file is skipped without attempting the pull; one whose
status query succeeds with no files gets the pull attempted and its outcome
reported; one whose status query itself fails is reported failed without the
pull being attempted; no outcome aborts the rest. -/
theorem sync_skip_amended (status : Str → Except Str Nat) (pull : Str → Except Str Unit)
    (out : Str) :
    (syncRun status pull out).length = (parseNonBareWorktrees out).length ∧
    syncRun status pull out
      = (parseNonBareWorktrees out).map (fun wt => (wt.2, syncOne (status wt.1) (pull wt.1))) ∧
    (∀ n e, 0 < n → syncOne (Except.ok n) e = (SyncOutcome.skipped, false)) ∧
    (∀ e, syncOne (Except.ok 0) e
      = match e with
        | Except.ok _ => (SyncOutcome.synced, true)
        | Except.error m => (SyncOutcome.failed m, true)) ∧
    (∀ m e, syncOne (Except.error m) e = (SyncOutcome.failed m, false)) := by
  refine ⟨by simp [syncRun], rfl, ?_, ?_, ?_⟩
  · intro n e hn
    simp [syncOne, hn]
  · intro e
    cases e <;> rfl
  · intro m e
    rfl

def syncSt : Str → Except Str Nat := fun _ => Except.ok 3

def syncPl : Str → Except Str Unit := fun _ => Except.ok ()

def syncOut : Str := "worktree /a\nbranch refs/heads/dev".toList

/-- Witness for sync_skip_amended: a status query reporting three files leads
to the skipped outcome with no pull attempt. -/
theorem sync_skip_amended_witness :
    syncOne (Except.ok 3) (Except.ok ()) = (SyncOutcome.skipped, false) ∧
    (syncRun syncSt syncPl syncOut).length = (parseNonBareWorktrees syncOut).length :=
  ⟨(sync_skip_amended syncSt syncPl syncOut).2.2.1 3 (Except.ok ()) (by decide),
   (sync_skip_amended syncSt syncPl syncOut).1⟩

/-- A short pattern prefix of an appended string is a prefix of the left part
when it fits inside it. -/
theorem strStarts_le_append : ∀ (pat s t : Str),
    strStarts pat (s ++ t) = true → pat.length ≤ s.length → strStarts pat s = true := by
  intro pat
  induction pat with
  | nil => intro s t _ _; rfl
  | cons p ps ih =>
    intro s t h hlen
    cases s with
    | nil => simp at hlen
    | cons c cs =>
      simp only [List.cons_append, strStarts, Bool.and_eq_true] at h ⊢
      exact ⟨h.1, ih cs t h.2 (by simpa using hlen)⟩

/-- A head mismatch refutes strStarts. -/
theorem strStarts_head_mismatch (p c : Char) (ps cs : Str) (h : (p == c) = false) :
    strStarts (p :: ps) (c :: cs) = false := by
  simp [strStarts, h]

/-- A tail mismatch refutes strStarts. -/
theorem strStarts_cons_false (p c : Char) (ps cs : Str) (h : strStarts ps cs = false) :
    strStarts (p :: ps) (c :: cs) = false := by
  simp [strStarts, h]

/-- The pattern /.bare is primitive: it cannot start inside a short non-empty
block that is immediately followed by the pattern itself. -/
theorem noStraddle : ∀ s : Str, s ≠ [] → s.length < 6 →
    strStarts dotBare (s ++ dotBare) = false := by
  intro s hne hlen
  have hdb : dotBare = '/' :: '.' :: 'b' :: 'a' :: 'r' :: 'e' :: [] := rfl
  rcases s with _ | ⟨c1, s⟩
  · exact absurd rfl hne
  rcases s with _ | ⟨c2, s⟩
  · rw [hdb]
    simp only [List.cons_append, List.nil_append]
    apply strStarts_cons_false
    decide
  rcases s with _ | ⟨c3, s⟩
  · rw [hdb]
    simp only [List.cons_append, List.nil_append]
    apply strStarts_cons_false
    apply strStarts_cons_false
    decide
  rcases s with _ | ⟨c4, s⟩
  · rw [hdb]
    simp only [List.cons_append, List.nil_append]
    apply strStarts_cons_false
    apply strStarts_cons_false
    apply strStarts_cons_false
    decide
  rcases s with _ | ⟨c5, s⟩
  · rw [hdb]
    simp only [List.cons_append, List.nil_append]
    apply strStarts_cons_false
    apply strStarts_cons_false
    apply strStarts_cons_false
    apply strStarts_cons_false
    decide
  rcases s with _ | ⟨c6, s⟩
  · rw [hdb]
    simp only [List.cons_append, List.nil_append]
    apply strStarts_cons_false
    apply strStarts_cons_false
    apply strStarts_cons_false
    apply strStarts_cons_false
    apply strStarts_cons_false
    decide
  · simp only [List.length_cons] at hlen
    omega

/-- Deleting the first occurrence of /.bare from a directory string followed by
/.bare recovers the directory, provided the directory itself contains no
occurrence of /.bare. -/
theorem replaceFirst_dotBare_append :
    ∀ cwd : Str, containsSub dotBare cwd = false →
      replaceFirstStr dotBare [] (cwd ++ dotBare) = cwd := by
  intro cwd
  induction cwd with
  | nil => intro _; rfl
  | cons c cs ih =>
    intro h
    have hcc := h
    simp only [containsSub, Bool.or_eq_false_iff] at hcc
    obtain ⟨h1, htail⟩ := hcc
    have h2 : strStarts dotBare (c :: (cs ++ dotBare)) = false := by
      cases htrue : strStarts dotBare (c :: (cs ++ dotBare)) with
      | false => rfl
      | true =>
        by_cases hlen : 6 ≤ (c :: cs).length
        · have hful := strStarts_le_append dotBare (c :: cs) dotBare
            (by simpa only [List.cons_append] using htrue)
            (by
              have hdl : dotBare.length = 6 := rfl
              omega)
          simp [hful] at h1
        · have hns := noStraddle (c :: cs) (by simp) (by omega)
          simp only [List.cons_append] at hns
          simp [hns] at htrue
    show replaceFirstStr dotBare [] ((c :: cs) ++ dotBare) = c :: cs
    simp only [List.cons_append]
    simp [replaceFirstStr, h2, ih htail]

/-- C9 counterexample: for the working directory /.bare (which contains the
substring /.bare, an earlier occurrence than the appended one), deleting the
first occurrence from the bare-store path /.bare/.bare still yields /.bare,
the bare store's parent; so the claimed equivalence (root correct if and only
if no earlier occurrence) fails in its only-if direction. -/
theorem root_iff_cex :
    containsSub dotBare ("/.bare".toList) = true ∧
    actualRepoPathOf (("/.bare".toList : Str) ++ dotBare) = "/.bare".toList := ⟨rfl, rfl⟩

/-- C9 amended: the repository root is computed by deleting the first
occurrence of /.bare from the bare-store path; it equals the bare store's
parent whenever the working directory's path contains no occurrence of /.bare;
a path containing /.bare generally yields a wrong root, as the concrete
directory /home/x/.bareish shows, though in degenerate cases such as the
directory /.bare the result coincides with the parent. -/
theorem root_first_occurrence_amended (cwd : Str) :
    (containsSub dotBare cwd = false → actualRepoPathOf (cwd ++ dotBare) = cwd) ∧
    actualRepoPathOf (("/home/x/.bareish".toList : Str) ++ dotBare) = "/home/xish/.bare".toList ∧
    (("/home/xish/.bare".toList : Str) ≠ "/home/x/.bareish".toList) := by
  refine ⟨fun h => replaceFirst_dotBare_append cwd h, rfl, by decide⟩

/-- Witness for root_first_occurrence_amended at a clean working directory. -/
theorem root_first_occurrence_amended_witness :
    actualRepoPathOf (("/home/user/proj".toList : Str) ++ dotBare) = "/home/user/proj".toList :=
  (root_first_occurrence_amended ("/home/user/proj".toList)).1 rfl

/-- A pattern is a prefix of itself followed by anything. -/
theorem strStarts_append_self : ∀ (k x : Str), strStarts k (k ++ x) = true := by
  intro k
  induction k with
  | nil => intro x; rfl
  | cons a as ih => intro x; simp [strStarts, ih]

/-- Deleting the first occurrence of a pattern from the pattern followed by
anything yields the remainder. -/
theorem replaceFirst_append_self (k x : Str) : replaceFirstStr k [] (k ++ x) = x := by
  cases k with
  | nil =>
    cases x with
    | nil => rfl
    | cons c cs => simp [replaceFirstStr, strStarts]
  | cons a as =>
    have hs := strStarts_append_self (a :: as) x
    simp only [List.cons_append] at hs
    simp [replaceFirstStr, hs, List.length_cons, List.drop_succ_cons, List.drop_left]

/-- A separator-free string is one whole chunk for the one-character
splitter. -/
theorem splitOnChar_noSep : ∀ (l : Str) (sep : Char), l.all (fun c => !(c == sep)) = true →
    splitOnChar sep l = [l] := by
  intro l sep
  induction l with
  | nil => intro _; rfl
  | cons c cs ih =>
    intro h
    simp only [List.all_cons, Bool.and_eq_true] at h
    obtain ⟨hc, hcs⟩ := h
    have hcne : ¬ c = sep := by simpa using hc
    simp [splitOnChar, hcne, ih hcs, consHead]

/-- The one-character splitter peels a separator-free chunk before the first
separator. -/
theorem splitOnChar_chunk : ∀ (l rest : Str) (sep : Char),
    l.all (fun c => !(c == sep)) = true →
    splitOnChar sep (l ++ sep :: rest) = l :: splitOnChar sep rest := by
  intro l
  induction l with
  | nil => intro rest sep _; simp [splitOnChar]
  | cons c cs ih =>
    intro rest sep h
    simp only [List.all_cons, Bool.and_eq_true] at h
    obtain ⟨hc, hcs⟩ := h
    have hcne : ¬ c = sep := by simpa using hc
    simp only [List.cons_append]
    simp [splitOnChar, hcne, ih rest sep hcs, consHead]

/-- Splitting the newline-joined form of newline-free lines recovers the
lines. -/
theorem splitNL_joinLines : ∀ (ls : List Str), ls ≠ [] → (∀ l ∈ ls, noNL l = true) →
    splitOnChar '\n' (joinLines ls) = ls := by
  intro ls
  induction ls with
  | nil => intro h _; exact absurd rfl h
  | cons l ls ih =>
    intro _ hall
    cases ls with
    | nil =>
      simp only [joinLines]
      exact splitOnChar_noSep l '\n' (by simpa [noNL] using hall l (by simp))
    | cons l2 ls2 =>
      have hl : l.all (fun c => !(c == '\n')) = true := by
        simpa [noNL] using hall l (by simp)
      have hrest : ∀ x ∈ l2 :: ls2, noNL x = true := fun x hx => hall x (by simp [hx])
      simp only [joinLines]
      rw [splitOnChar_chunk l (joinLines (l2 :: ls2)) '\n' hl]
      rw [ih (by simp) hrest]

/-- A clean chunk with a non-newline character in front stays clean. -/
theorem chunkOK_cons_of_ne (c : Char) (rest : Str) (hc : ¬ c = '\n')
    (h : chunkOK rest = true) : chunkOK (c :: rest) = true := by
  cases rest with
  | nil => simp [chunkOK, hc]
  | cons c2 r =>
    have hcond : ¬ (c = '\n' ∧ c2 = '\n') := fun hx => hc hx.1
    simp [chunkOK, hcond, h]

/-- The blank-line splitter leaves a clean chunk whole. -/
theorem splitNN_noSplit : ∀ (b : Str), chunkOK b = true → splitNN b = [b] := by
  intro b
  induction b with
  | nil => intro _; rfl
  | cons c rest ih =>
    intro h
    cases rest with
    | nil => rfl
    | cons c2 r =>
      have hcond : ¬ (c = '\n' ∧ c2 = '\n') := by
        intro hx
        simp [chunkOK, hx] at h
      have htail : chunkOK (c2 :: r) = true := by
        simpa [chunkOK, hcond] using h
      simp [splitNN, hcond, ih htail, consHead]

/-- The blank-line splitter peels a clean chunk before the first blank-line
separator. -/
theorem splitNN_chunk : ∀ (b rest : Str), chunkOK b = true →
    splitNN (b ++ '\n' :: '\n' :: rest) = b :: splitNN rest := by
  intro b
  induction b with
  | nil => intro rest _; simp [splitNN]
  | cons c cs ih =>
    intro rest h
    cases cs with
    | nil =>
      have hc : ¬ c = '\n' := by simpa [chunkOK] using h
      have hcond : ¬ (c = '\n' ∧ ('\n' : Char) = '\n') := fun hx => hc hx.1
      simp only [List.cons_append, List.nil_append]
      simp [splitNN, hcond, consHead, hc]
    | cons c2 cs2 =>
      have hcond : ¬ (c = '\n' ∧ c2 = '\n') := by
        intro hx
        simp [chunkOK, hx] at h
      have htail : chunkOK (c2 :: cs2) = true := by
        simpa [chunkOK, hcond] using h
      have ih' := ih rest htail
      simp only [List.cons_append] at ih' ⊢
      simp [splitNN, hcond, ih', consHead]

/-- Splitting the blank-line-joined form of clean chunks recovers the
chunks. -/
theorem splitNN_joinBlocks : ∀ (bs : List Str), bs ≠ [] → (∀ b ∈ bs, chunkOK b = true) →
    splitNN (joinBlocks bs) = bs := by
  intro bs
  induction bs with
  | nil => intro h _; exact absurd rfl h
  | cons b bs ih =>
    intro _ hall
    cases bs with
    | nil =>
      simp only [joinBlocks]
      exact splitNN_noSplit b (hall b (by simp))
    | cons b2 bs2 =>
      have hb := hall b (by simp)
      have hrest : ∀ x ∈ b2 :: bs2, chunkOK x = true := fun x hx => hall x (by simp [hx])
      simp only [joinBlocks]
      rw [splitNN_chunk b (joinBlocks (b2 :: bs2)) hb]
      rw [ih (by simp) hrest]

/-- Prefixing a clean chunk with a newline-free string keeps it clean. -/
theorem chunkOK_append_noNL : ∀ (l rest : Str), noNL l = true → chunkOK rest = true →
    chunkOK (l ++ rest) = true := by
  intro l
  induction l with
  | nil => intro rest _ h; simpa using h
  | cons c cs ih =>
    intro rest hl h
    simp only [noNL, List.all_cons, Bool.and_eq_true] at hl
    obtain ⟨hc, hcs⟩ := hl
    have hcne : ¬ c = '\n' := by simpa using hc
    have hrec := ih rest (by simpa [noNL] using hcs) h
    simpa [List.cons_append] using chunkOK_cons_of_ne c (cs ++ rest) hcne hrec

/-- A newline followed by a clean chunk that does not itself start with a
newline is clean. -/
theorem chunkOK_nl_cons (c : Char) (r : Str) (hc : ¬ c = '\n')
    (h : chunkOK (c :: r) = true) : chunkOK ('\n' :: c :: r) = true := by
  have hcond : ¬ (('\n' : Char) = '\n' ∧ c = '\n') := fun hx => hc hx.2
  simp [chunkOK, hcond, h, hc]

/-- Whitespace-free strings are newline-free. -/
theorem noNL_of_goodStr (s : Str) (h : goodStr s = true) : noNL s = true := by
  unfold goodStr at h
  unfold noNL
  simp only [List.all_eq_true] at h ⊢
  intro c hc
  have hws := h c hc
  by_cases hcn : c = '\n'
  · subst hcn
    simp [isWS] at hws
  · simpa using hcn

/-- Newline-free strings joined by newlines form a clean chunk when every line
is non-empty. -/
theorem chunkOK_joinLines : ∀ (ls : List Str), (∀ l ∈ ls, l ≠ [] ∧ noNL l = true) →
    chunkOK (joinLines ls) = true := by
  intro ls
  induction ls with
  | nil => intro _; rfl
  | cons l ls ih =>
    intro hall
    cases ls with
    | nil =>
      have h2 := chunkOK_append_noNL l [] (hall l (by simp)).2 rfl
      simpa [joinLines] using h2
    | cons l2 ls2 =>
      have h1 := hall l (by simp)
      have hrec := ih (fun x hx => hall x (by simp [hx]))
      obtain ⟨hl2ne, hl2nl⟩ := hall l2 (by simp)
      have hform : ∃ c r, joinLines (l2 :: ls2) = c :: r ∧ ¬ c = '\n' := by
        cases l2 with
        | nil => exact absurd rfl hl2ne
        | cons c cs =>
          have hc : ¬ c = '\n' := by
            simp only [noNL, List.all_cons, Bool.and_eq_true] at hl2nl
            simpa using hl2nl.1
          cases ls2 with
          | nil => exact ⟨c, cs, by simp [joinLines], hc⟩
          | cons l3 ls3 =>
            exact ⟨c, cs ++ '\n' :: joinLines (l3 :: ls3), by simp [joinLines], hc⟩
      obtain ⟨c, r, heq, hcne⟩ := hform
      simp only [joinLines]
      apply chunkOK_append_noNL l ('\n' :: joinLines (l2 :: ls2)) h1.2
      rw [heq]
      exact chunkOK_nl_cons c r hcne (heq ▸ hrec)

/-- Newline-freeness is preserved by append. -/
theorem noNL_append (a b : Str) (ha : noNL a = true) (hb : noNL b = true) :
    noNL (a ++ b) = true := by
  unfold noNL at ha hb ⊢
  rw [List.all_append, ha, hb]
  rfl

/-- The worktree line of a whitespace-free path is newline-free. -/
theorem noNL_line_w (p : Str) (hp : goodStr p = true) : noNL (worktreeKey ++ p) = true :=
  noNL_append worktreeKey p (by decide) (noNL_of_goodStr p hp)

/-- The branch line of a whitespace-free branch name is newline-free. -/
theorem noNL_line_b (b : Str) (hb : goodStr b = true) :
    noNL (branchKey ++ refsHeadsKey ++ b) = true :=
  noNL_append branchKey _ (by decide)
    (noNL_append refsHeadsKey b (by decide) (noNL_of_goodStr b hb))

/-- The worktree line is never empty. -/
theorem line_w_ne (p : Str) : worktreeKey ++ p ≠ [] := by
  show ('w' :: ("orktree ".toList ++ p)) ≠ []
  exact List.cons_ne_nil _ _

/-- The branch line is never empty. -/
theorem line_b_ne (b : Str) : branchKey ++ refsHeadsKey ++ b ≠ [] := by
  show ('b' :: ("ranch ".toList ++ (refsHeadsKey ++ b))) ≠ []
  exact List.cons_ne_nil _ _

/-- The worktree-line predicate accepts a worktree line. -/
theorem fw_pos (p : Str) : strStarts worktreeKey (worktreeKey ++ p) = true :=
  strStarts_append_self worktreeKey p

/-- The worktree-line predicate rejects a branch line. -/
theorem fw_branch (x : Str) : strStarts worktreeKey (branchKey ++ x) = false :=
  strStarts_head_mismatch 'w' 'b' ("orktree ".toList) ("ranch ".toList ++ x) (by decide)

/-- The worktree-line predicate rejects the bare marker. -/
theorem fw_bare : strStarts worktreeKey bareKey = false := by decide

/-- The branch-line predicate rejects a worktree line. -/
theorem fb_w (x : Str) : strStarts branchKey (worktreeKey ++ x) = false :=
  strStarts_head_mismatch 'b' 'w' ("ranch ".toList) ("orktree ".toList ++ x) (by decide)

/-- The branch-line predicate accepts a branch line. -/
theorem fb_pos (x : Str) : strStarts branchKey (branchKey ++ x) = true :=
  strStarts_append_self branchKey x

/-- The branch-line predicate rejects the bare marker. -/
theorem fb_bare : strStarts branchKey bareKey = false := by decide

/-- Lists of different lengths are not beq-equal. -/
theorem beq_false_of_ne_length (a b : Str) (h : a.length ≠ b.length) : (a == b) = false := by
  rw [beq_eq_false_iff_ne]
  intro he
  exact h (by rw [he])

/-- A worktree line is never the bare marker. -/
theorem eqb_w_bare (p : Str) : ((worktreeKey ++ p) == bareKey) = false := by
  apply beq_false_of_ne_length
  rw [List.length_append]
  have h1 : worktreeKey.length = 9 := rfl
  have h2 : bareKey.length = 4 := rfl
  omega

/-- A branch line is never the bare marker. -/
theorem eqb_b_bare (x : Str) : ((branchKey ++ x) == bareKey) = false := by
  apply beq_false_of_ne_length
  rw [List.length_append]
  have h1 : branchKey.length = 7 := rfl
  have h2 : bareKey.length = 4 := rfl
  omega

/-- The last character of a whitespace-free string is not whitespace. -/
theorem goodStr_last (p q : Str) (c : Char) (hp : goodStr p = true) (hq : p = q ++ [c]) :
    isWS c = false := by
  subst hq
  have h := (List.all_eq_true.mp hp) c (by simp)
  simpa using h

/-- Joined lines starting with a cons-headed line start with that
character. -/
theorem joinLines_head (c : Char) (y : Str) (rest : List Str) :
    ∃ t, joinLines ((c :: y) :: rest) = c :: t := by
  cases rest with
  | nil => exact ⟨y, by simp [joinLines]⟩
  | cons l2 ls => exact ⟨y ++ '\n' :: joinLines (l2 :: ls), by simp [joinLines]⟩

/-- Joined blocks starting with a cons-headed block start with that
character. -/
theorem joinBlocks_head (c : Char) (y : Str) (rest : List Str) :
    ∃ t, joinBlocks ((c :: y) :: rest) = c :: t := by
  cases rest with
  | nil => exact ⟨y, by simp [joinBlocks]⟩
  | cons b2 bs => exact ⟨y ++ '\n' :: '\n' :: joinBlocks (b2 :: bs), by simp [joinBlocks]⟩

/-- Joined lines whose last line ends in a character end in that character. -/
theorem joinLines_snoc : ∀ (ls : List Str) (t : Str) (c : Char),
    ∃ T, joinLines (ls ++ [t ++ [c]]) = T ++ [c] := by
  intro ls t c
  induction ls with
  | nil => exact ⟨t, by simp [joinLines]⟩
  | cons l ls ih =>
    obtain ⟨T, hT⟩ := ih
    cases ls with
    | nil => exact ⟨l ++ '\n' :: t, by simp [joinLines]⟩
    | cons l2 ls2 =>
      refine ⟨l ++ '\n' :: T, ?_⟩
      simp only [List.cons_append] at hT ⊢
      simp [joinLines, hT]

/-- Joined blocks whose last block ends in a character end in that
character. -/
theorem joinBlocks_snoc : ∀ (bs : List Str) (t : Str) (c : Char),
    ∃ T, joinBlocks (bs ++ [t ++ [c]]) = T ++ [c] := by
  intro bs t c
  induction bs with
  | nil => exact ⟨t, by simp [joinBlocks]⟩
  | cons b bs ih =>
    obtain ⟨T, hT⟩ := ih
    cases bs with
    | nil => exact ⟨b ++ '\n' :: '\n' :: t, by simp [joinBlocks]⟩
    | cons b2 bs2 =>
      refine ⟨b ++ '\n' :: '\n' :: T, ?_⟩
      simp only [List.cons_append] at hT ⊢
      simp [joinBlocks, hT]

/-- Every wellformed synthesized entry renders to a clean chunk that starts
and ends with a non-whitespace character. -/
theorem renderEntry_props (e : PorcelainEntry) (hwf : entryWF e = true) :
    chunkOK (renderEntry e) = true ∧
    (∃ c t, renderEntry e = c :: t ∧ isWS c = false) ∧
    (∃ t c, renderEntry e = t ++ [c] ∧ isWS c = false) := by
  obtain ⟨op, ob, bare⟩ := e
  cases op with
  | some p =>
    cases ob with
    | some b =>
      simp [entryWF] at hwf
      obtain ⟨⟨hpne, hpg⟩, hbg⟩ := hwf
      cases bare with
      | true =>
        have hlines : ∀ l ∈ [worktreeKey ++ p, branchKey ++ refsHeadsKey ++ b, bareKey],
            l ≠ [] ∧ noNL l = true := by
          intro l hl
          simp only [List.mem_cons, List.not_mem_nil, or_false] at hl
          rcases hl with rfl | rfl | rfl
          · exact ⟨line_w_ne p, noNL_line_w p hpg⟩
          · exact ⟨line_b_ne b, noNL_line_b b hbg⟩
          · exact ⟨by decide, by decide⟩
        refine ⟨?_, ?_, ?_⟩
        · exact chunkOK_joinLines
            [worktreeKey ++ p, branchKey ++ refsHeadsKey ++ b, bareKey] hlines
        · obtain ⟨t, ht⟩ := joinLines_head 'w' ("orktree ".toList ++ p)
            [branchKey ++ refsHeadsKey ++ b, bareKey]
          exact ⟨'w', t, ht, by decide⟩
        · obtain ⟨T, hT⟩ := joinLines_snoc
            [worktreeKey ++ p, branchKey ++ refsHeadsKey ++ b] ("bar".toList) 'e'
          exact ⟨T, 'e', hT, by decide⟩
      | false =>
        have hlines : ∀ l ∈ [worktreeKey ++ p, branchKey ++ refsHeadsKey ++ b],
            l ≠ [] ∧ noNL l = true := by
          intro l hl
          simp only [List.mem_cons, List.not_mem_nil, or_false] at hl
          rcases hl with rfl | rfl
          · exact ⟨line_w_ne p, noNL_line_w p hpg⟩
          · exact ⟨line_b_ne b, noNL_line_b b hbg⟩
        refine ⟨?_, ?_, ?_⟩
        · exact chunkOK_joinLines [worktreeKey ++ p, branchKey ++ refsHeadsKey ++ b] hlines
        · obtain ⟨t, ht⟩ := joinLines_head 'w' ("orktree ".toList ++ p)
            [branchKey ++ refsHeadsKey ++ b]
          exact ⟨'w', t, ht, by decide⟩
        · rcases List.eq_nil_or_concat b with hb0 | ⟨q, cL, hbq⟩
          · subst hb0
            obtain ⟨T, hT⟩ := joinLines_snoc [worktreeKey ++ p]
              ("branch refs/heads".toList) '/'
            exact ⟨T, '/', hT, by decide⟩
          · rw [List.concat_eq_append] at hbq
            subst hbq
            obtain ⟨T, hT⟩ := joinLines_snoc [worktreeKey ++ p]
              (branchKey ++ refsHeadsKey ++ q) cL
            exact ⟨T, cL, hT, goodStr_last (q ++ [cL]) q cL hbg rfl⟩
    | none =>
      simp [entryWF] at hwf
      obtain ⟨hpne, hpg⟩ := hwf
      obtain ⟨q, cL, hpq⟩ := (List.eq_nil_or_concat p).resolve_left hpne
      rw [List.concat_eq_append] at hpq
      cases bare with
      | true =>
        have hlines : ∀ l ∈ [worktreeKey ++ p, bareKey], l ≠ [] ∧ noNL l = true := by
          intro l hl
          simp only [List.mem_cons, List.not_mem_nil, or_false] at hl
          rcases hl with rfl | rfl
          · exact ⟨line_w_ne p, noNL_line_w p hpg⟩
          · exact ⟨by decide, by decide⟩
        refine ⟨?_, ?_, ?_⟩
        · exact chunkOK_joinLines [worktreeKey ++ p, bareKey] hlines
        · obtain ⟨t, ht⟩ := joinLines_head 'w' ("orktree ".toList ++ p) [bareKey]
          exact ⟨'w', t, ht, by decide⟩
        · obtain ⟨T, hT⟩ := joinLines_snoc [worktreeKey ++ p] ("bar".toList) 'e'
          exact ⟨T, 'e', hT, by decide⟩
      | false =>
        have hlines : ∀ l ∈ [worktreeKey ++ p], l ≠ [] ∧ noNL l = true := by
          intro l hl
          simp only [List.mem_cons, List.not_mem_nil, or_false] at hl
          rcases hl with rfl
          exact ⟨line_w_ne p, noNL_line_w p hpg⟩
        refine ⟨?_, ?_, ?_⟩
        · exact chunkOK_joinLines [worktreeKey ++ p] hlines
        · obtain ⟨t, ht⟩ := joinLines_head 'w' ("orktree ".toList ++ p) []
          exact ⟨'w', t, ht, by decide⟩
        · subst hpq
          obtain ⟨T, hT⟩ := joinLines_snoc [] (worktreeKey ++ q) cL
          exact ⟨T, cL, hT, goodStr_last (q ++ [cL]) q cL hpg rfl⟩
  | none =>
    cases ob with
    | some b =>
      simp [entryWF] at hwf
      have hbg : goodStr b = true := hwf
      cases bare with
      | true =>
        have hlines : ∀ l ∈ [branchKey ++ refsHeadsKey ++ b, bareKey],
            l ≠ [] ∧ noNL l = true := by
          intro l hl
          simp only [List.mem_cons, List.not_mem_nil, or_false] at hl
          rcases hl with rfl | rfl
          · exact ⟨line_b_ne b, noNL_line_b b hbg⟩
          · exact ⟨by decide, by decide⟩
        refine ⟨?_, ?_, ?_⟩
        · exact chunkOK_joinLines [branchKey ++ refsHeadsKey ++ b, bareKey] hlines
        · obtain ⟨t, ht⟩ := joinLines_head 'b' ("ranch ".toList ++ (refsHeadsKey ++ b)) [bareKey]
          exact ⟨'b', t, ht, by decide⟩
        · obtain ⟨T, hT⟩ := joinLines_snoc [branchKey ++ refsHeadsKey ++ b] ("bar".toList) 'e'
          exact ⟨T, 'e', hT, by decide⟩
      | false =>
        have hlines : ∀ l ∈ [branchKey ++ refsHeadsKey ++ b], l ≠ [] ∧ noNL l = true := by
          intro l hl
          simp only [List.mem_cons, List.not_mem_nil, or_false] at hl
          rcases hl with rfl
          exact ⟨line_b_ne b, noNL_line_b b hbg⟩
        refine ⟨?_, ?_, ?_⟩
        · exact chunkOK_joinLines [branchKey ++ refsHeadsKey ++ b] hlines
        · obtain ⟨t, ht⟩ := joinLines_head 'b' ("ranch ".toList ++ (refsHeadsKey ++ b)) []
          exact ⟨'b', t, ht, by decide⟩
        · rcases List.eq_nil_or_concat b with hb0 | ⟨q, cL, hbq⟩
          · subst hb0
            obtain ⟨T, hT⟩ := joinLines_snoc [] ("branch refs/heads".toList) '/'
            exact ⟨T, '/', hT, by decide⟩
          · rw [List.concat_eq_append] at hbq
            subst hbq
            obtain ⟨T, hT⟩ := joinLines_snoc [] (branchKey ++ refsHeadsKey ++ q) cL
            exact ⟨T, cL, hT, goodStr_last (q ++ [cL]) q cL hbg rfl⟩
    | none =>
      cases bare with
      | true =>
        refine ⟨by decide, ?_, ?_⟩
        · obtain ⟨t, ht⟩ := joinLines_head 'b' ("are".toList) []
          exact ⟨'b', t, ht, by decide⟩
        · obtain ⟨T, hT⟩ := joinLines_snoc [] ("bar".toList) 'e'
          exact ⟨T, 'e', hT, by decide⟩
      | false => simp [entryWF] at hwf

/-- The listWorktrees entry parser recovers exactly the expected record from
every wellformed synthesized entry. -/
theorem parseEntry_render (d : Str → Bool) (e : PorcelainEntry) (hwf : entryWF e = true) :
    parseEntry d (renderEntry e) = expectedRecord d e := by
  obtain ⟨op, ob, bare⟩ := e
  cases op with
  | some p =>
    cases ob with
    | some b =>
      simp [entryWF] at hwf
      obtain ⟨⟨hpne, hpg⟩, hbg⟩ := hwf
      cases bare with
      | true =>
        have hnl : ∀ l ∈ [worktreeKey ++ p, branchKey ++ refsHeadsKey ++ b, bareKey],
            noNL l = true := by
          intro l hl
          simp only [List.mem_cons, List.not_mem_nil, or_false] at hl
          rcases hl with rfl | rfl | rfl
          · exact noNL_line_w p hpg
          · exact noNL_line_b b hbg
          · decide
        have hsplit : splitOnChar '\n' (renderEntry ⟨some p, some b, true⟩)
            = [worktreeKey ++ p, branchKey ++ refsHeadsKey ++ b, bareKey] :=
          splitNL_joinLines _ (by simp [entryLines]) hnl
        simp only [parseEntry]
        rw [hsplit]
        simp [List.find?, fw_pos, fb_w, fb_pos, eqb_w_bare, eqb_b_bare,
          replaceFirst_append_self, expectedRecord]
      | false =>
        have hnl : ∀ l ∈ [worktreeKey ++ p, branchKey ++ refsHeadsKey ++ b],
            noNL l = true := by
          intro l hl
          simp only [List.mem_cons, List.not_mem_nil, or_false] at hl
          rcases hl with rfl | rfl
          · exact noNL_line_w p hpg
          · exact noNL_line_b b hbg
        have hsplit : splitOnChar '\n' (renderEntry ⟨some p, some b, false⟩)
            = [worktreeKey ++ p, branchKey ++ refsHeadsKey ++ b] :=
          splitNL_joinLines _ (by simp [entryLines]) hnl
        simp only [parseEntry]
        rw [hsplit]
        simp [List.find?, fw_pos, fb_w, fb_pos, eqb_w_bare, eqb_b_bare,
          replaceFirst_append_self, expectedRecord]
    | none =>
      simp [entryWF] at hwf
      obtain ⟨hpne, hpg⟩ := hwf
      cases bare with
      | true =>
        have hnl : ∀ l ∈ [worktreeKey ++ p, bareKey], noNL l = true := by
          intro l hl
          simp only [List.mem_cons, List.not_mem_nil, or_false] at hl
          rcases hl with rfl | rfl
          · exact noNL_line_w p hpg
          · decide
        have hsplit : splitOnChar '\n' (renderEntry ⟨some p, none, true⟩)
            = [worktreeKey ++ p, bareKey] :=
          splitNL_joinLines _ (by simp [entryLines]) hnl
        simp only [parseEntry]
        rw [hsplit]
        simp [List.find?, fw_pos, fb_w, fb_bare, eqb_w_bare,
          replaceFirst_append_self, expectedRecord]
      | false =>
        have hnl : ∀ l ∈ [worktreeKey ++ p], noNL l = true := by
          intro l hl
          simp only [List.mem_cons, List.not_mem_nil, or_false] at hl
          rcases hl with rfl
          exact noNL_line_w p hpg
        have hsplit : splitOnChar '\n' (renderEntry ⟨some p, none, false⟩)
            = [worktreeKey ++ p] :=
          splitNL_joinLines _ (by simp [entryLines]) hnl
        simp only [parseEntry]
        rw [hsplit]
        simp [List.find?, fw_pos, fb_w, eqb_w_bare,
          replaceFirst_append_self, expectedRecord]
  | none =>
    cases ob with
    | some b =>
      simp [entryWF] at hwf
      have hbg : goodStr b = true := hwf
      cases bare with
      | true =>
        have hnl : ∀ l ∈ [branchKey ++ refsHeadsKey ++ b, bareKey], noNL l = true := by
          intro l hl
          simp only [List.mem_cons, List.not_mem_nil, or_false] at hl
          rcases hl with rfl | rfl
          · exact noNL_line_b b hbg
          · decide
        have hsplit : splitOnChar '\n' (renderEntry ⟨none, some b, true⟩)
            = [branchKey ++ refsHeadsKey ++ b, bareKey] :=
          splitNL_joinLines _ (by simp [entryLines]) hnl
        simp only [parseEntry]
        rw [hsplit]
        simp [List.find?, fw_branch, fw_bare, expectedRecord]
      | false =>
        have hnl : ∀ l ∈ [branchKey ++ refsHeadsKey ++ b], noNL l = true := by
          intro l hl
          simp only [List.mem_cons, List.not_mem_nil, or_false] at hl
          rcases hl with rfl
          exact noNL_line_b b hbg
        have hsplit : splitOnChar '\n' (renderEntry ⟨none, some b, false⟩)
            = [branchKey ++ refsHeadsKey ++ b] :=
          splitNL_joinLines _ (by simp [entryLines]) hnl
        simp only [parseEntry]
        rw [hsplit]
        simp [List.find?, fw_branch, expectedRecord]
    | none =>
      cases bare with
      | true =>
        have hsplit : splitOnChar '\n' (renderEntry ⟨none, none, true⟩) = [bareKey] :=
          splitNL_joinLines _ (by simp [entryLines]) (by intro l hl; simp [entryLines] at hl; subst hl; decide)
        simp only [parseEntry]
        rw [hsplit]
        simp [List.find?, fw_bare, expectedRecord]
      | false => simp [entryWF] at hwf

/-- Trim is the identity on a string that starts and ends with non-whitespace
characters. -/
theorem trimStr_eq_self (s : Str) (c1 : Char) (t1 : Str) (t2 : Str) (c2 : Char)
    (h1 : s = c1 :: t1) (h2 : s = t2 ++ [c2]) (w1 : isWS c1 = false) (w2 : isWS c2 = false) :
    trimStr s = s := by
  unfold trimStr
  have hd : s.dropWhile isWS = s := by
    rw [h1]
    simp [List.dropWhile_cons, w1]
  rw [hd]
  have hrev : s.reverse = c2 :: t2.reverse := by
    rw [h2]
    simp
  rw [hrev]
  have hdw : (c2 :: t2.reverse).dropWhile isWS = c2 :: t2.reverse := by
    simp [List.dropWhile_cons, w2]
  rw [hdw, ← hrev]
  exact List.reverse_reverse s

/-- Parsing the rendered entries chunkwise gives the expected records. -/
theorem parse_chunks (d : Str → Bool) : ∀ (es : List PorcelainEntry), es.all entryWF = true →
    ((es.map renderEntry).filterMap (parseEntry d)) = es.filterMap (expectedRecord d) := by
  intro es
  induction es with
  | nil => intro _; rfl
  | cons e es ih =>
    intro hwf
    simp only [List.all_cons, Bool.and_eq_true] at hwf
    obtain ⟨h1, h2⟩ := hwf
    simp only [List.map_cons, List.filterMap_cons]
    rw [parseEntry_render d e h1, ih h2]

/-- C1: for every synthesized blank-line-separated porcelain text over
wellformed entries, the parser returns one record per entry carrying a
worktree line (entries without one are skipped), maps a branch line with the
refs/heads prefix to the bare branch name, maps a missing branch line to the
detached sentinel, and the listing excludes exactly the entries carrying the
standalone bare marker; in particular the number of listed records is the
number of non-bare entries that have a worktree line. -/
theorem porcelain_roundtrip (d : Str → Bool) (es : List PorcelainEntry)
    (hwf : es.all entryWF = true) :
    parseWorktreesList d (renderPorcelain es) = es.filterMap (expectedRecord d) ∧
    listedWorktrees d (renderPorcelain es)
      = (es.filterMap (expectedRecord d)).filter (fun r => !r.isBare) ∧
    (listedWorktrees d (renderPorcelain es)).length
      = (es.filter (fun e => e.path?.isSome && !e.bare)).length := by
  have hA : parseWorktreesList d (renderPorcelain es) = es.filterMap (expectedRecord d) := by
    cases es with
    | nil => rfl
    | cons e0 es' =>
      have hwf' : ∀ x ∈ e0 :: es', entryWF x = true := List.all_eq_true.mp hwf
      obtain ⟨hC0, ⟨c0, t0, hh, hw0⟩, hlast0⟩ := renderEntry_props e0 (hwf' e0 (by simp))
      obtain ⟨init, elast, hsplit⟩ := (List.eq_nil_or_concat (e0 :: es')).resolve_left (by simp)
      rw [List.concat_eq_append] at hsplit
      have hwfl : entryWF elast = true := hwf' elast (by rw [hsplit]; simp)
      obtain ⟨-, -, ⟨tl, cl, hl, hwl⟩⟩ := renderEntry_props elast hwfl
      have hmapsnoc : (e0 :: es').map renderEntry
          = init.map renderEntry ++ [renderEntry elast] := by
        rw [hsplit, List.map_append]
        simp
      obtain ⟨th, hth⟩ := joinBlocks_head c0 t0 (es'.map renderEntry)
      obtain ⟨Tl, hTl⟩ := joinBlocks_snoc (init.map renderEntry) tl cl
      have hP1 : joinBlocks ((e0 :: es').map renderEntry) = c0 :: th := by
        rw [List.map_cons, hh]
        exact hth
      have hP2 : joinBlocks ((e0 :: es').map renderEntry) = Tl ++ [cl] := by
        rw [hmapsnoc, hl]
        exact hTl
      have htrim : trimStr (joinBlocks ((e0 :: es').map renderEntry))
          = joinBlocks ((e0 :: es').map renderEntry) :=
        trimStr_eq_self _ c0 th Tl cl hP1 hP2 hw0 hwl
      have hOK : ∀ b ∈ (e0 :: es').map renderEntry, chunkOK b = true := by
        intro b hb
        obtain ⟨x, hx, hxb⟩ := List.mem_map.mp hb
        obtain ⟨hcx, -, -⟩ := renderEntry_props x (hwf' x hx)
        rw [← hxb]
        exact hcx
      show (splitNN (trimStr (joinBlocks ((e0 :: es').map renderEntry)))).filterMap
          (parseEntry d) = (e0 :: es').filterMap (expectedRecord d)
      rw [htrim, splitNN_joinBlocks _ (by simp) hOK]
      exact parse_chunks d (e0 :: es') hwf
  refine ⟨hA, ?_, ?_⟩
  · unfold listedWorktrees
    rw [hA]
  · unfold listedWorktrees
    rw [hA]
    clear hA hwf
    induction es with
    | nil => rfl
    | cons e es ih =>
      cases hp : e.path? with
      | none =>
        simp [List.filterMap_cons, List.filter_cons, expectedRecord, hp, ih]
      | some p =>
        cases hbare : e.bare with
        | true => simp [List.filterMap_cons, List.filter_cons, expectedRecord, hp, hbare, ih]
        | false => simp [List.filterMap_cons, List.filter_cons, expectedRecord, hp, hbare, ih]

def wEntries : List PorcelainEntry :=
  [⟨some ("/r/main".toList), some ("main".toList), false⟩,
   ⟨some ("/r/dev".toList), none, false⟩,
   ⟨some ("/r".toList), none, true⟩]

/-- Witness for porcelain_roundtrip with two non-bare entries and one bare
entry: exactly the two non-bare records are listed, the branch line maps to
the branch name, the missing branch line maps to the detached sentinel. -/
theorem porcelain_roundtrip_witness :
    listedWorktrees (fun _ => true) (renderPorcelain wEntries)
      = [⟨"/r/main".toList, "main".toList, false, true⟩,
         ⟨"/r/dev".toList, detachedSentinel, false, true⟩] ∧
    (listedWorktrees (fun _ => true) (renderPorcelain wEntries)).length = 2 := by
  have h := porcelain_roundtrip (fun _ => true) wEntries (by decide)
  constructor
  · rw [h.2.1]
    decide
  · rw [h.2.2]
    decide

/-- C7 amended: the parser never signals a ParseError: every input splits into
blocks and parses successfully; the empty input yields zero records rather
than a failure; and an entry missing the optional branch line is not an error
but yields a record with the detached sentinel. -/
theorem parse_total_amended (d : Str → Bool) (p : Str) (hpne : p ≠ [])
    (hpg : goodStr p = true) :
    parseWorktreesList d [] = [] ∧
    parseEntry d (renderEntry ⟨some p, none, false⟩)
      = some ⟨p, detachedSentinel, false, d p⟩ := by
  constructor
  · rfl
  · rw [parseEntry_render d ⟨some p, none, false⟩ (by simp [entryWF, hpne, hpg])]
    simp [expectedRecord]

/-- Witness for parse_total_amended at a concrete path. -/
theorem parse_total_amended_witness :
    parseWorktreesList (fun _ => false) [] = [] ∧
    parseEntry (fun _ => false) (renderEntry ⟨some ("/w/a".toList), none, false⟩)
      = some ⟨"/w/a".toList, detachedSentinel, false, false⟩ := by
  have h := parse_total_amended (fun _ => false) ("/w/a".toList) (by decide) (by decide)
  exact ⟨h.1, by rw [h.2]⟩
